import Mathlib

/-!
# Medama directory organizer: categorisation, grouping and plan export

A shallow embedding of the organising logic of `src/main.cpp`
(`MainFrame::FormatFileSize`, `GetSizeCategory`, `GetDateCategory`,
`GetCategoryForFile`, `OnOrganize`, `OnExportPlan`, `OnStrategyChanged` and the
session state they act on), followed by theorems about it.

Conventions of the embedding.

* `wxString` is `String`; all string functions below work on the character list
  `String.data`, and strings are compared by code point (`wxLess`).
* `wxULongLong` is `Nat` (a value below `2 ^ 64`), `wxDateTime` and `wxTimeSpan`
  are `Int` numbers of milliseconds, as in their internal representation.
* A `double` that holds a non-negative integer is represented by that integer
  (`toDouble`); quotients by powers of two are kept as numerator and exponent.
* `wxDateTime::Now()` is an input: the reading taken while the record at
  position `i` of the file list is categorised is `clock i`.
* `wxTextFile` is the list of lines passed to `AddLine`, in order.
-/

namespace Medama

/-! ## Data model (`src/main.cpp`, lines 21-43) -/

/-- The record `struct FileInfo`: `modified` is the time in milliseconds. -/
structure FileInfo where
  path : String
  name : String
  size : Nat
  modified : Int
  deriving DecidableEq, Repr

/-- The enumeration `enum class Strategy`. -/
inductive Strategy where
  | ByType
  | ByDate
  | BySize
  | ByExtension
  deriving DecidableEq, Repr

/-! ## Strings -/

/-- Code-point lexicographic "less than" on character lists
(`wxString::operator<`, which compares the character sequences). -/
def charsLess : List Char → List Char → Bool
  | [], [] => false
  | [], _ :: _ => true
  | _ :: _, [] => false
  | a :: as, b :: bs =>
    if a.toNat < b.toNat then true
    else if b.toNat < a.toNat then false
    else charsLess as bs

/-- The comparison `s1 < s2` of two `wxString`s. -/
def wxLess (s1 s2 : String) : Bool := charsLess s1.data s2.data

/-- The method `wxString::Lower()`: every character mapped by `tolower`
(the letters `A`-`Z`; other characters are unchanged). -/
def Lower (s : String) : String := ⟨s.data.map Char.toLower⟩

/-- The method `wxString::IsEmpty()`. -/
def IsEmpty (s : String) : Bool := s.data.isEmpty

/-- Index of the last occurrence of `c` in `s` (`find_last_of`), scanning from
index `i`; `none` stands for `npos`. -/
def findLastFrom (c : Char) : Nat → List Char → Option Nat
  | _, [] => none
  | i, x :: xs =>
    match findLastFrom c (i + 1) xs with
    | some j => some j
    | none => if x = c then some i else none

/-- Index of the last occurrence of `c` in `s`. -/
def find_last_of (s : List Char) (c : Char) : Option Nat := findLastFrom c 0 s

/-- The extension computed by `wxFileName(fullpath).GetExt()`.  `wxFileName`
belongs to the wxWidgets library, which the program links against; this is
`wxFileName::SplitPath` for the Unix path format (the program is built with
`g++` and `wx-config`): the extension is what follows the last `.`, unless that
dot is the first character of a path component or lies before the last `/`,
in which cases there is no extension. -/
def GetExt (fullpath : String) : String :=
  let s := fullpath.data
  let posLastDot := find_last_of s '.'
  let posLastSlash := find_last_of s '/'
  let posLastDot :=
    match posLastDot with
    | some d => if d = 0 ∨ s[d - 1]? = some '/' then none else some d
    | none => none
  let posLastDot :=
    match posLastDot, posLastSlash with
    | some d, some p => if d < p then none else some d
    | d, _ => d
  match posLastDot with
  | none => ""
  | some d => ⟨s.drop (d + 1)⟩

/-! ## Numbers -/

/-- Number of low bits that do not fit into the 53-bit significand of a
`double`: the least `e` from the start value on with `n / 2 ^ e < 2 ^ 53`,
searched over `fuel` candidates. -/
def dropBits : Nat → Nat → Nat → Nat
  | 0, _, e => e
  | fuel + 1, n, e => if n / 2 ^ e < 2 ^ 53 then e else dropBits fuel n (e + 1)

/-- The conversion `static_cast<double>(n)` of a 64-bit unsigned integer: `n`
rounded to 53 significant bits, ties to even.  The result is again an integer.
For `n < 2 ^ 64` at most 11 bits are dropped. -/
def toDouble (n : Nat) : Nat :=
  if n < 2 ^ 53 then n
  else
    let e := dropBits 11 n 0
    let q := n / 2 ^ e
    let r := n % 2 ^ e
    let half := 2 ^ (e - 1)
    if r < half then q * 2 ^ e
    else if half < r then (q + 1) * 2 ^ e
    else if q % 2 = 0 then q * 2 ^ e
    else (q + 1) * 2 ^ e

/-- The quotient `num / den` rounded to the nearest integer, ties to even: the
rounding `printf` applies to the exact value of its argument. -/
def roundHalfEven (num den : Nat) : Nat :=
  let q := num / den
  let r := num % den
  if 2 * r < den then q
  else if den < 2 * r then q + 1
  else if q % 2 = 0 then q
  else q + 1

/-- The conversion `"%.0f"` applied to the double `b / 2 ^ k`. -/
def fmt0 (b k : Nat) : String := Nat.repr (roundHalfEven b (2 ^ k))

/-- The conversion `"%.1f"` applied to the double `b / 2 ^ k`: the number of
tenths nearest to the value, written with one digit after the point. -/
def fmt1 (b k : Nat) : String :=
  let t := roundHalfEven (10 * b) (2 ^ k)
  Nat.repr (t / 10) ++ "." ++ Nat.repr (t % 10)

/-! ## Helper logic (`src/main.cpp`, lines 346-431) -/

/-- The function `MainFrame::FormatFileSize`.  The constants `1024.0`,
`1024.0 * 1024.0`, ... are exact, and dividing `b` by them is exact. -/
def FormatFileSize (bytes : Nat) : String :=
  let b := toDouble bytes
  if b < 1024 then fmt0 b 0 ++ " B"
  else if b < 1024 * 1024 then fmt1 b 10 ++ " KB"
  else if b < 1024 * 1024 * 1024 then fmt1 b 20 ++ " MB"
  else fmt1 b 30 ++ " GB"

/-- The function `MainFrame::GetSizeCategory`. -/
def GetSizeCategory (bytes : Nat) : String :=
  let b := toDouble bytes
  if b < 1024 * 100 then "Tiny (< 100KB)"
  else if b < 1024 * 1024 then "Small (< 1MB)"
  else if b < 1024 * 1024 * 10 then "Medium (< 10MB)"
  else if b < 1024 * 1024 * 100 then "Large (< 100MB)"
  else "Very Large (> 100MB)"

/-- The conversion of a 64-bit value to `int` (`static_cast<int>` of the low
32 bits): the representative of `x` modulo `2 ^ 32` in the `int` range. -/
def toInt32 (x : Int) : Int := (x + 2 ^ 31) % 2 ^ 32 - 2 ^ 31

/-- The accessor `wxTimeSpan::GetSeconds()` of the wxWidgets library:
`m_diff / 1000`, the division truncating toward zero. -/
def GetSeconds (diff : Int) : Int := Int.tdiv diff 1000

/-- The accessor `wxTimeSpan::GetMinutes()`:
`static_cast<int>((GetSeconds() / 60).GetLo())`. -/
def GetMinutes (diff : Int) : Int := toInt32 (Int.tdiv (GetSeconds diff) 60)

/-- The accessor `wxTimeSpan::GetHours()`: `GetMinutes() / 60`. -/
def GetHours (diff : Int) : Int := Int.tdiv (GetMinutes diff) 60

/-- The accessor `wxTimeSpan::GetDays()`: `GetHours() / 24`. -/
def GetDays (diff : Int) : Int := Int.tdiv (GetHours diff) 24

/-- The boundary chain of `MainFrame::GetDateCategory` (lines 376-382) on the
local variable `diffDays`. -/
def GetDateCategoryOfDays (diffDays : Int) : String :=
  if diffDays = 0 then "Today"
  else if diffDays = 1 then "Yesterday"
  else if diffDays < 7 then "This Week"
  else if diffDays < 30 then "This Month"
  else if diffDays < 90 then "Last 3 Months"
  else if diffDays < 365 then "This Year"
  else "Older"

/-- The function `MainFrame::GetDateCategory`; `now` is the value returned by
the call `wxDateTime::Now()` in its first line. -/
def GetDateCategory (now dt : Int) : String :=
  let diff := now - dt
  let diffDays := GetDays diff
  GetDateCategoryOfDays diffDays

/-- The function `MainFrame::GetCategoryForFile`. -/
def GetCategoryForFile (file : FileInfo) : String :=
  let ext := Lower (GetExt file.name)
  if ext = "jpg" ∨ ext = "jpeg" ∨ ext = "png" ∨ ext = "gif" ∨
      ext = "bmp" ∨ ext = "svg" ∨ ext = "webp" ∨ ext = "ico" then "Images"
  else if ext = "mp3" ∨ ext = "wav" ∨ ext = "flac" ∨ ext = "aac" ∨
      ext = "m4a" ∨ ext = "ogg" ∨ ext = "wma" then "Audio"
  else if ext = "mp4" ∨ ext = "avi" ∨ ext = "mkv" ∨ ext = "mov" ∨
      ext = "wmv" ∨ ext = "flv" ∨ ext = "webm" ∨ ext = "mpeg" then "Videos"
  else if ext = "js" ∨ ext = "jsx" ∨ ext = "ts" ∨ ext = "tsx" ∨
      ext = "py" ∨ ext = "java" ∨ ext = "cpp" ∨ ext = "c" ∨
      ext = "h" ∨ ext = "cs" ∨ ext = "php" ∨ ext = "rb" ∨
      ext = "go" ∨ ext = "rs" ∨ ext = "swift" ∨
      ext = "html" ∨ ext = "css" ∨ ext = "json" ∨ ext = "xml" then "Code"
  else if ext = "zip" ∨ ext = "rar" ∨ ext = "7z" ∨ ext = "tar" ∨
      ext = "gz" ∨ ext = "bz2" ∨ ext = "xz" then "Archives"
  else if ext = "txt" ∨ ext = "doc" ∨ ext = "docx" ∨ ext = "pdf" ∨
      ext = "rtf" ∨ ext = "odt" ∨ ext = "pages" then "Documents"
  else if ext = "xls" ∨ ext = "xlsx" ∨ ext = "csv" ∨ ext = "ods" ∨
      ext = "numbers" then "Spreadsheets"
  else if ext = "ppt" ∨ ext = "pptx" ∨ ext = "odp" ∨ ext = "key" then "Presentations"
  else "Other"

/-! ## Session state and events (`src/main.cpp`, lines 40-43 and 447-669) -/

/-- The member `std::map<wxString, std::vector<FileInfo>> m_organized`: the
entries in iteration order, which is ascending key order. -/
abbrev OrganizedMap := List (String × List FileInfo)

/-- The statement `m[category].push_back(f)`: the entry with an equivalent key
(neither key less than the other) gets `f` appended; without one, a new entry
holding only `f` is inserted at its place in key order. -/
def pushBack (category : String) (f : FileInfo) : OrganizedMap → OrganizedMap
  | [] => [(category, [f])]
  | (k, files) :: rest =>
    if wxLess category k then (category, [f]) :: (k, files) :: rest
    else if wxLess k category then (k, files) :: pushBack category f rest
    else (k, files ++ [f]) :: rest

/-- The read `m[key]` of the export loop: the vector stored under an
equivalent key, an empty vector if there is none. -/
def lookup (key : String) : OrganizedMap → List FileInfo
  | [] => []
  | (k, files) :: rest =>
    if wxLess key k then []
    else if wxLess k key then lookup key rest
    else files

/-- The state of `MainFrame` that the organising logic reads and writes:
the three data members, the text of the summary label and the selected page
of the book control. -/
structure MainFrame where
  m_files : List FileInfo
  m_organized : OrganizedMap
  m_strategy : Strategy
  m_organizedSummary : String
  m_book : Nat

/-- The state after construction: no files, strategy `ByType`, welcome page. -/
def MainFrame.init : MainFrame :=
  { m_files := [], m_organized := [], m_strategy := Strategy.ByType,
    m_organizedSummary := "", m_book := 0 }

/-- The two identical `switch` statements that set `strategyText`
(lines 584-590 and 626-632). -/
def strategyText : Strategy → String
  | Strategy.ByType => "By File Type"
  | Strategy.ByDate => "By Date Modified"
  | Strategy.BySize => "By File Size"
  | Strategy.ByExtension => "By Extension"

/-- The body of the `switch` in the loop of `OnOrganize` (lines 559-579): the
category of one record; `now` is read by `GetDateCategory` only. -/
def categoryFor (strategy : Strategy) (now : Int) (f : FileInfo) : String :=
  match strategy with
  | Strategy.ByType => GetCategoryForFile f
  | Strategy.ByDate => GetDateCategory now f.modified
  | Strategy.BySize => GetSizeCategory f.size
  | Strategy.ByExtension =>
    let ext := Lower (GetExt f.name)
    if ¬ IsEmpty ext then "." ++ ext else "No Extension"

/-- The loop `for (const auto& f : m_files)` of `OnOrganize`, from the record
at position `i` on. -/
def organizeLoop (strategy : Strategy) (clock : Nat → Int) :
    Nat → List FileInfo → OrganizedMap → OrganizedMap
  | _, [], m => m
  | i, f :: fs, m =>
    organizeLoop strategy clock (i + 1) fs (pushBack (categoryFor strategy (clock i) f) f m)

/-- The handler `MainFrame::OnOrganize`. -/
def OnOrganize (clock : Nat → Int) (st : MainFrame) : MainFrame :=
  if st.m_files.isEmpty then st
  else
    let organized := organizeLoop st.m_strategy clock 0 st.m_files []
    { st with
      m_organized := organized
      m_organizedSummary :=
        Nat.repr organized.length ++ " categories • " ++ Nat.repr st.m_files.length ++
          " files organized (" ++ strategyText st.m_strategy ++ ")"
      m_book := 2 }

/-- The key vector of `RebuildOrganizedView` and `OnExportPlan` (lines 453-458
and 638-642): the keys in iteration order, then `std::sort`. -/
def sortedKeys (m : OrganizedMap) : List String :=
  List.insertionSort (fun a b => wxLess a b = true) (m.map Prod.fst)

/-- The lines added for one category by the export loop (lines 645-650). -/
def exportBlock (key : String) (files : List FileInfo) : List String :=
  ("📁 " ++ key ++ "/ (" ++ Nat.repr files.length ++ " files)") ::
    (files.map (fun f => "   └─ " ++ f.name ++ " (" ++ FormatFileSize f.size ++ ")") ++ [""])

/-- The loop `for (const wxString& key : keys)` of `OnExportPlan`. -/
def exportLoop (m : OrganizedMap) : List String → List String
  | [] => []
  | key :: keys => exportBlock key (lookup key m) ++ exportLoop m keys

/-- The handler `MainFrame::OnExportPlan`: the lines written to the chosen
file, or `none` when it returns early (nothing organized, or the dialog was
not confirmed, `dlgOk = false`).  The state is not changed. -/
def OnExportPlan (dlgOk : Bool) (st : MainFrame) : Option (List String) :=
  if st.m_organized.isEmpty then none
  else if ¬ dlgOk then none
  else
    some (("Directory Organization Plan (" ++ strategyText st.m_strategy ++ ")") ::
      String.mk (List.replicate 60 '=') :: "" ::
      exportLoop st.m_organized (sortedKeys st.m_organized))

/-- The handler `MainFrame::OnStrategyChanged`; `sel` is `evt.GetSelection()`. -/
def OnStrategyChanged (sel : Int) (st : MainFrame) : MainFrame :=
  if sel = 1 then { st with m_strategy := Strategy.ByDate }
  else if sel = 2 then { st with m_strategy := Strategy.BySize }
  else if sel = 3 then { st with m_strategy := Strategy.ByExtension }
  else { st with m_strategy := Strategy.ByType }

/-- The handler `MainFrame::OnSelectFiles`; `picked` is `none` when the dialog
was cancelled, else the records built from the chosen paths. -/
def OnSelectFiles (picked : Option (List FileInfo)) (st : MainFrame) : MainFrame :=
  match picked with
  | none => st
  | some files => { st with m_files := files, m_organized := [], m_book := 1 }

/-- The handler `MainFrame::OnClearFiles`. -/
def OnClearFiles (st : MainFrame) : MainFrame :=
  { st with m_files := [], m_organized := [], m_organizedSummary := "", m_book := 0 }

/-- The events of a session that reach the handlers above. -/
inductive Event where
  | SelectFiles (picked : Option (List FileInfo))
  | ClearFiles
  | Organize (clock : Nat → Int)
  | ExportPlan (dlgOk : Bool)
  | StrategyChanged (sel : Int)

/-- One event: the next state and the plan written by it, if any. -/
def step (st : MainFrame) : Event → MainFrame × Option (List String)
  | Event.SelectFiles picked => (OnSelectFiles picked st, none)
  | Event.ClearFiles => (OnClearFiles st, none)
  | Event.Organize clock => (OnOrganize clock st, none)
  | Event.ExportPlan dlgOk => (st, OnExportPlan dlgOk st)
  | Event.StrategyChanged sel => (OnStrategyChanged sel st, none)

/-- A session: the events in order from state `st`; the final state and the
plans written, oldest first. -/
def run (st : MainFrame) : List Event → MainFrame × List (List String)
  | [] => (st, [])
  | e :: es =>
    let r := step st e
    let rest := run r.1 es
    (rest.1, (match r.2 with
      | some plan => [plan]
      | none => []) ++ rest.2)

/-! ## Notions used to state the properties -/

/-- The keys of the map are strictly ascending: the invariant of `std::map`. -/
def KeysAscending (m : OrganizedMap) : Prop :=
  List.Pairwise (fun a b => wxLess a b = true) (m.map Prod.fst)

/-- The records from position `i` of the file list on, each paired with the
category label that the loop of `OnOrganize` computes for it. -/
def labelledFrom (strategy : Strategy) (clock : Nat → Int) :
    Nat → List FileInfo → List (String × FileInfo)
  | _, [] => []
  | i, f :: fs => (categoryFor strategy (clock i) f, f) :: labelledFrom strategy clock (i + 1) fs

/-- The subsequence of the labelled records whose label is `key`, in their
original order. -/
def recordsLabelled (key : String) (l : List (String × FileInfo)) : List FileInfo :=
  (l.filter (fun p => p.1 = key)).map Prod.snd

/-- A state right after construction, but holding `files` under `strategy`. -/
def stateWith (files : List FileInfo) (strategy : Strategy) : MainFrame :=
  { MainFrame.init with m_files := files, m_strategy := strategy }

/-- The three records of the end-to-end scenario of the specification. -/
def scenarioFiles : List FileInfo :=
  [{ path := "/home/u/a.jpg", name := "a.jpg", size := 500, modified := 0 },
   { path := "/home/u/b.txt", name := "b.txt", size := 2000000, modified := 0 },
   { path := "/home/u/c.mp3", name := "c.mp3", size := 5000000, modified := 0 }]

/-- Three records whose buckets are created in the order Videos, Audio, Code. -/
def mediaFiles : List FileInfo :=
  [{ path := "/home/u/v.mp4", name := "v.mp4", size := 7000000, modified := 0 },
   { path := "/home/u/s.mp3", name := "s.mp3", size := 3000, modified := 0 },
   { path := "/home/u/m.cpp", name := "m.cpp", size := 20, modified := 0 }]

/-- The first record of the scenario, a picture of 500 bytes. -/
def pictureFile : FileInfo :=
  { path := "/home/u/a.jpg", name := "a.jpg", size := 500, modified := 0 }

/-- A session that organizes one picture by type, then selects the strategy
"by size" and exports the plan. -/
def relabelSession : List Event :=
  [Event.SelectFiles (some [pictureFile]),
   Event.Organize (fun _ => 0),
   Event.StrategyChanged 2,
   Event.ExportPlan true]

/-- The fixed table of section 4.1 of the specification, in priority order:
category and extension set. -/
def categoryTable : List (String × List String) :=
  [("Images", ["jpg", "jpeg", "png", "gif", "bmp", "svg", "webp", "ico"]),
   ("Audio", ["mp3", "wav", "flac", "aac", "m4a", "ogg", "wma"]),
   ("Videos", ["mp4", "avi", "mkv", "mov", "wmv", "flv", "webm", "mpeg"]),
   ("Code", ["js", "jsx", "ts", "tsx", "py", "java", "cpp", "c", "h", "cs", "php", "rb",
     "go", "rs", "swift", "html", "css", "json", "xml"]),
   ("Archives", ["zip", "rar", "7z", "tar", "gz", "bz2", "xz"]),
   ("Documents", ["txt", "doc", "docx", "pdf", "rtf", "odt", "pages"]),
   ("Spreadsheets", ["xls", "xlsx", "csv", "ods", "numbers"]),
   ("Presentations", ["ppt", "pptx", "odp", "key"])]

/-- The extension as the specification words it: the substring after the last
`.` of the name, empty if the name has no `.`. -/
def extAfterLastDot (name : String) : String :=
  if '.' ∈ name.data then
    ⟨(name.data.reverse.takeWhile (fun c => !decide (c = '.'))).reverse⟩
  else ""

/-- The only `.` of the name is its first character. -/
def leadingDotOnly (name : String) : Bool :=
  match name.data with
  | [] => false
  | c :: rest => decide (c = '.') && !decide ('.' ∈ rest)

/-- The quotient `num / den` written with one decimal: the nearest number of
tenths (ties to even), the tenths digit after the point. -/
def oneDecimal (num den : Nat) : String :=
  let t := roundHalfEven (10 * num) den
  Nat.repr (t / 10) ++ "." ++ Nat.repr (t % 10)

/-- The size string as the specification words it, computed on the exact byte
count: bytes below 1024, else `bytes / 1024` in KB below `1024 ^ 2`, else
`bytes / 1024 ^ 2` in MB below `1024 ^ 3`, else `bytes / 1024 ^ 3` in GB, the
quotients with one decimal. -/
def formatSizeSpec (bytes : Nat) : String :=
  if bytes < 1024 then Nat.repr bytes ++ " B"
  else if bytes < 1024 ^ 2 then oneDecimal bytes 1024 ++ " KB"
  else if bytes < 1024 ^ 3 then oneDecimal bytes (1024 ^ 2) ++ " MB"
  else oneDecimal bytes (1024 ^ 3) ++ " GB"

/-- A file of about 8 PiB whose size is not a `double`. -/
def hugeSize : Nat := 9007199308428083

/-- A record named `.gitignore`. -/
def dotFile : FileInfo :=
  { path := "/home/u/.gitignore", name := ".gitignore", size := 10, modified := 0 }

/-- A record named `README`. -/
def readmeFile : FileInfo :=
  { path := "/home/u/README", name := "README", size := 10, modified := 0 }


/-- The day difference as the specification words it: the floor of
`now - modifiedAt` measured in days of 86400000 milliseconds. -/
def floorDays (now modifiedAt : Int) : Int := (now - modifiedAt) / 86400000

/-- A record modified at time 0. -/
def noteOne : FileInfo :=
  { path := "/home/u/one.txt", name := "one.txt", size := 10, modified := 0 }

/-- Another record modified at time 0. -/
def noteTwo : FileInfo :=
  { path := "/home/u/two.txt", name := "two.txt", size := 20, modified := 0 }

/-- Two records with the same modification time. -/
def sameTimeFiles : List FileInfo := [noteOne, noteTwo]

/-- The readings of a run that passes the end of the first day after time 0:
one second before it for the first record, the full day from then on. -/
def midnightClock : Nat → Int := fun i => if i = 0 then 86399000 else 86400000

/-! ## The conversion to `double` -/

theorem dropBits_spec (fuel n e : Nat) :
    dropBits fuel n e = e ∨ 2 ^ 53 ≤ n / 2 ^ (dropBits fuel n e - 1) := by
  induction fuel generalizing e with
  | zero => left; rfl
  | succ k ih =>
    unfold dropBits
    split
    · left; rfl
    · rename_i h
      rcases ih (e + 1) with h1 | h1
      · right; rw [h1]; simpa using h
      · right; exact h1

theorem toDouble_of_lt {n : Nat} (h : n < 2 ^ 53) : toDouble n = n := by
  unfold toDouble
  rw [if_pos h]

theorem toDouble_ge {n : Nat} (h : 2 ^ 53 ≤ n) : 2 ^ 53 ≤ toDouble n := by
  have hq : 2 ^ 53 ≤ n / 2 ^ (dropBits 11 n 0) * 2 ^ (dropBits 11 n 0) := by
    rcases dropBits_spec 11 n 0 with h0 | h1
    · rw [h0]; simpa using h
    · generalize dropBits 11 n 0 = e at *
      rcases e with _ | e
      · simpa using h1
      · simp only [Nat.add_sub_cancel] at h1
        have h2 : 2 ^ 53 * 2 ^ e ≤ n := (Nat.le_div_iff_mul_le (by positivity)).1 h1
        have h3 : 2 ^ 52 ≤ n / 2 ^ (e + 1) := by
          rw [Nat.le_div_iff_mul_le (by positivity)]
          calc 2 ^ 52 * 2 ^ (e + 1) = 2 ^ 53 * 2 ^ e := by ring
            _ ≤ n := h2
        calc 2 ^ 53 ≤ 2 ^ 52 * 2 ^ (e + 1) := by
              have : 1 ≤ 2 ^ e := Nat.one_le_two_pow
              calc 2 ^ 53 = 2 ^ 52 * 2 := by norm_num
                _ ≤ 2 ^ 52 * (2 ^ e * 2) := by nlinarith
                _ = 2 ^ 52 * 2 ^ (e + 1) := by ring
          _ ≤ n / 2 ^ (e + 1) * 2 ^ (e + 1) := Nat.mul_le_mul_right _ h3
  have hne : ¬ n < 2 ^ 53 := by omega
  simp only [toDouble, hne, if_false]
  have hle : n / 2 ^ (dropBits 11 n 0) * 2 ^ (dropBits 11 n 0) ≤
      (n / 2 ^ (dropBits 11 n 0) + 1) * 2 ^ (dropBits 11 n 0) :=
    Nat.mul_le_mul_right _ (Nat.le_succ _)
  split_ifs <;> omega

theorem toDouble_lt_iff (n c : Nat) (hc : c ≤ 2 ^ 53) : toDouble n < c ↔ n < c := by
  by_cases h : n < 2 ^ 53
  · rw [toDouble_of_lt h]
  · have h1 := toDouble_ge (Nat.le_of_not_lt h)
    constructor <;> intro h2 <;> omega


/-! ## The string order -/

theorem char_eq_of_toNat_eq {a b : Char} (h : a.toNat = b.toNat) : a = b := by
  rw [← Char.ofNat_toNat a, ← Char.ofNat_toNat b, h]

theorem charsLess_irrefl (a : List Char) : charsLess a a = false := by
  induction a with
  | nil => rfl
  | cons x xs ih => simp [charsLess, ih]

theorem charsLess_trans {a b c : List Char} (h1 : charsLess a b = true)
    (h2 : charsLess b c = true) : charsLess a c = true := by
  induction a generalizing b c with
  | nil =>
    cases b with
    | nil => simp [charsLess] at h1
    | cons y ys =>
      cases c with
      | nil => simp [charsLess] at h2
      | cons z zs => simp [charsLess]
  | cons x xs ih =>
    cases b with
    | nil => simp [charsLess] at h1
    | cons y ys =>
      cases c with
      | nil => simp [charsLess] at h2
      | cons z zs =>
        simp only [charsLess] at h1 h2 ⊢
        split_ifs at h1 h2 ⊢ <;> first | rfl | omega | (exact ih h1 h2)

theorem charsLess_eq_of_not {a b : List Char} (h1 : charsLess a b = false)
    (h2 : charsLess b a = false) : a = b := by
  induction a generalizing b with
  | nil =>
    cases b with
    | nil => rfl
    | cons y ys => simp [charsLess] at h1
  | cons x xs ih =>
    cases b with
    | nil => simp [charsLess] at h2
    | cons y ys =>
      simp only [charsLess] at h1 h2
      split_ifs at h1 h2
      have hxy : x = y := char_eq_of_toNat_eq (by omega)
      rw [hxy, ih h1 h2]

theorem wxLess_irrefl (a : String) : wxLess a a = false := charsLess_irrefl a.data

theorem wxLess_trans {a b c : String} (h1 : wxLess a b = true) (h2 : wxLess b c = true) :
    wxLess a c = true := charsLess_trans h1 h2

theorem wxLess_eq_of_not {a b : String} (h1 : wxLess a b = false) (h2 : wxLess b a = false) :
    a = b := String.ext (charsLess_eq_of_not h1 h2)

theorem wxLess_ne {a b : String} (h : wxLess a b = true) : a ≠ b := by
  intro hab
  rw [hab, wxLess_irrefl] at h
  exact Bool.noConfusion h

theorem wxLess_asymm {a b : String} (h : wxLess a b = true) : wxLess b a = false := by
  cases hba : wxLess b a with
  | false => rfl
  | true =>
    have := wxLess_trans h hba
    rw [wxLess_irrefl] at this
    exact Bool.noConfusion this

/-! ## The map operations -/

theorem lookup_pushBack (c k : String) (f : FileInfo) (m : OrganizedMap) :
    lookup k (pushBack c f m) = if k = c then lookup k m ++ [f] else lookup k m := by
  induction m with
  | nil =>
    simp only [pushBack, lookup]
    by_cases hkc : k = c
    · subst hkc; simp [wxLess_irrefl]
    · rw [if_neg hkc]
      cases h1 : wxLess k c with
      | true => simp
      | false =>
        cases h2 : wxLess c k with
        | true => simp
        | false => exact absurd (wxLess_eq_of_not h1 h2) hkc
  | cons e rest ih =>
    obtain ⟨k', b⟩ := e
    simp only [pushBack]
    cases hc1 : wxLess c k' with
    | true =>
      simp only [if_true, lookup]
      by_cases hkc : k = c
      · subst hkc; simp [wxLess_irrefl, hc1]
      · rw [if_neg hkc]
        cases h1 : wxLess k c with
        | true => simp [wxLess_trans h1 hc1]
        | false =>
          cases h2 : wxLess c k with
          | true => simp
          | false => exact absurd (wxLess_eq_of_not h1 h2) hkc
    | false =>
      cases hc2 : wxLess k' c with
      | true =>
        simp only [Bool.false_eq_true, if_false, if_true, lookup]
        cases h1 : wxLess k k' with
        | true =>
          have hkc : k ≠ c := wxLess_ne (wxLess_trans h1 hc2)
          simp [hkc]
        | false =>
          cases h2 : wxLess k' k with
          | true => simp [ih]
          | false =>
            have hkk : k = k' := wxLess_eq_of_not h1 h2
            have hkc : k ≠ c := by rw [hkk]; exact wxLess_ne hc2
            simp [hkc]
      | false =>
        have hck : c = k' := wxLess_eq_of_not hc1 hc2
        subst hck
        simp only [Bool.false_eq_true, if_false, lookup]
        by_cases hkc : k = c
        · subst hkc; simp [wxLess_irrefl]
        · rw [if_neg hkc]
          cases h1 : wxLess k c with
          | true => simp
          | false =>
            cases h2 : wxLess c k with
            | true => simp
            | false => exact absurd (wxLess_eq_of_not h1 h2) hkc

theorem mem_keys_pushBack {c k : String} {f : FileInfo} {m : OrganizedMap}
    (h : k ∈ (pushBack c f m).map Prod.fst) : k = c ∨ k ∈ m.map Prod.fst := by
  induction m with
  | nil => simpa [pushBack] using h
  | cons e rest ih =>
    obtain ⟨k', b⟩ := e
    simp only [pushBack] at h
    split_ifs at h with h1 h2
    · simpa using h
    · simp only [List.map_cons, List.mem_cons] at h ⊢
      rcases h with h | h
      · exact Or.inr (Or.inl h)
      · rcases ih h with h | h
        · exact Or.inl h
        · exact Or.inr (Or.inr h)
    · right; simpa using h

theorem keysAscending_pushBack (c : String) (f : FileInfo) {m : OrganizedMap}
    (hm : KeysAscending m) : KeysAscending (pushBack c f m) := by
  induction m with
  | nil => simp [pushBack, KeysAscending]
  | cons e rest ih =>
    obtain ⟨k', b⟩ := e
    unfold KeysAscending at hm ⊢
    simp only [List.map_cons, List.pairwise_cons] at hm
    simp only [pushBack]
    split_ifs with h1 h2
    · simp only [List.map_cons, List.pairwise_cons, List.mem_cons]
      refine ⟨?_, hm.1, hm.2⟩
      rintro a (rfl | ha)
      · exact h1
      · exact wxLess_trans h1 (hm.1 a ha)
    · simp only [List.map_cons, List.pairwise_cons]
      refine ⟨?_, ih hm.2⟩
      intro a ha
      rcases mem_keys_pushBack ha with rfl | ha
      · exact h2
      · exact hm.1 a ha
    · simpa using hm

theorem perm_pushBack (c : String) (f : FileInfo) (m : OrganizedMap) :
    ((pushBack c f m).map Prod.snd).flatten.Perm (f :: (m.map Prod.snd).flatten) := by
  induction m with
  | nil => simp [pushBack]
  | cons e rest ih =>
    obtain ⟨k', b⟩ := e
    simp only [pushBack]
    split_ifs with h1 h2
    · simp
    · simp only [List.map_cons, List.flatten_cons]
      exact (List.Perm.append_left b ih).trans List.perm_middle
    · simp only [List.map_cons, List.flatten_cons, List.append_assoc, List.singleton_append]
      exact List.perm_middle

theorem nonempty_pushBack (c : String) (f : FileInfo) {m : OrganizedMap}
    (hm : ∀ e ∈ m, e.2 ≠ []) : ∀ e ∈ pushBack c f m, e.2 ≠ [] := by
  induction m with
  | nil => simp [pushBack]
  | cons e rest ih =>
    obtain ⟨k', b⟩ := e
    simp only [List.mem_cons, forall_eq_or_imp] at hm
    simp only [pushBack]
    split_ifs with h1 h2
    · simp only [List.mem_cons, forall_eq_or_imp]
      exact ⟨by simp, hm.1, hm.2⟩
    · simp only [List.mem_cons, forall_eq_or_imp]
      exact ⟨hm.1, ih hm.2⟩
    · simp only [List.mem_cons, forall_eq_or_imp]
      exact ⟨by simp, hm.2⟩

theorem lookup_of_mem {m : OrganizedMap} (hm : KeysAscending m) {e : String × List FileInfo}
    (he : e ∈ m) : lookup e.1 m = e.2 := by
  induction m with
  | nil => simp at he
  | cons x rest ih =>
    obtain ⟨k', b⟩ := x
    unfold KeysAscending at hm
    simp only [List.map_cons, List.pairwise_cons] at hm
    simp only [List.mem_cons] at he
    rcases he with rfl | he
    · simp [lookup, wxLess_irrefl]
    · have hlt : wxLess k' e.1 = true := hm.1 e.1 (List.mem_map_of_mem _ he)
      simp [lookup, hlt, wxLess_asymm hlt, ih hm.2 he]


/-! ## Extensions -/

theorem takeWhile_ne_append_of_mem (c : Char) {l : List Char} (r : List Char) (h : c ∈ l) :
    (l ++ r).takeWhile (fun x => !decide (x = c)) = l.takeWhile (fun x => !decide (x = c)) := by
  induction l with
  | nil => simp at h
  | cons x xs ih =>
    by_cases hx : x = c
    · simp [List.takeWhile, hx]
    · have hc : c ∈ xs := by
        rcases List.mem_cons.1 h with h1 | h1
        · exact absurd h1.symm hx
        · exact h1
      simp [List.takeWhile, hx, ih hc]

theorem takeWhile_ne_append_of_not_mem (c : Char) {l : List Char} (r : List Char)
    (h : c ∉ l) :
    (l ++ r).takeWhile (fun x => !decide (x = c)) =
      l ++ r.takeWhile (fun x => !decide (x = c)) := by
  induction l with
  | nil => rfl
  | cons x xs ih =>
    simp only [List.mem_cons, not_or] at h
    have hx : x ≠ c := fun h0 => h.1 h0.symm
    simp [List.takeWhile, hx, ih h.2]

theorem findLastFrom_eq_none (c : Char) (i : Nat) (s : List Char) :
    findLastFrom c i s = none ↔ c ∉ s := by
  induction s generalizing i with
  | nil => simp [findLastFrom]
  | cons x xs ih =>
    simp only [findLastFrom, List.mem_cons, not_or]
    cases hr : findLastFrom c (i + 1) xs with
    | some j =>
      have hmem : ¬ c ∉ xs := fun h0 => by
        rw [(ih (i + 1)).2 h0] at hr
        exact Option.noConfusion hr
      simp [hmem]
    | none =>
      have hmem : c ∉ xs := (ih (i + 1)).1 hr
      by_cases hx : x = c
      · simp [hx]
      · have hx2 : ¬ c = x := fun h0 => hx h0.symm
        simp [hx, hx2, hmem]

theorem findLastFrom_eq_some {c : Char} {i j : Nat} {s : List Char}
    (h : findLastFrom c i s = some j) :
    i ≤ j ∧ s.drop (j + 1 - i) =
      (s.reverse.takeWhile (fun x => !decide (x = c))).reverse := by
  induction s generalizing i with
  | nil => simp [findLastFrom] at h
  | cons x xs ih =>
    simp only [findLastFrom] at h
    cases hr : findLastFrom c (i + 1) xs with
    | some j2 =>
      rw [hr] at h
      simp only [Option.some.injEq] at h
      subst h
      obtain ⟨h1, h2⟩ := ih hr
      have hmem : c ∈ xs.reverse := by
        rw [List.mem_reverse]
        by_contra h0
        rw [(findLastFrom_eq_none c (i + 1) xs).2 h0] at hr
        exact Option.noConfusion hr
      refine ⟨by omega, ?_⟩
      rw [List.reverse_cons, takeWhile_ne_append_of_mem c _ hmem, ← h2]
      have hidx : j2 + 1 - i = (j2 + 1 - (i + 1)) + 1 := by omega
      rw [hidx, List.drop_succ_cons]
    | none =>
      rw [hr] at h
      have hmem : c ∉ xs.reverse := by
        rw [List.mem_reverse]
        exact (findLastFrom_eq_none c (i + 1) xs).1 hr
      by_cases hx : x = c
      · simp only [hx, if_true, Option.some.injEq] at h
        subst h
        refine ⟨le_refl _, ?_⟩
        rw [List.reverse_cons, takeWhile_ne_append_of_not_mem c _ hmem]
        simp [hx, List.takeWhile]
      · simp [hx] at h

theorem GetExt_of_no_slash (name : String) (h : '/' ∉ name.data) :
    GetExt name = if leadingDotOnly name = true then "" else extAfterLastDot name := by
  have hslash : find_last_of name.data '/' = none :=
    (findLastFrom_eq_none '/' 0 name.data).2 h
  unfold GetExt
  simp only [hslash]
  unfold leadingDotOnly extAfterLastDot find_last_of
  cases hs : name.data with
  | nil => simp [findLastFrom]
  | cons x xs =>
    simp only [findLastFrom]
    cases hr : findLastFrom '.' 1 xs with
    | some j =>
      obtain ⟨h1, h2⟩ := findLastFrom_eq_some hr
      have hmem : '.' ∈ xs := by
        by_contra h0
        rw [(findLastFrom_eq_none '.' 1 xs).2 h0] at hr
        exact Option.noConfusion hr
      have hj : ¬ j = 0 := by omega
      have hget : ¬ (x :: xs)[j - 1]? = some '/' := by
        intro h0
        exact h (hs ▸ List.getElem?_mem h0)
      have hidx : j + 1 - 1 = j := by omega
      rw [hidx] at h2
      simp [hj, hget, hmem, List.reverse_cons, takeWhile_ne_append_of_mem '.' _
        (List.mem_reverse.2 hmem), ← h2]
    | none =>
      have hmem : '.' ∉ xs := (findLastFrom_eq_none '.' 1 xs).1 hr
      by_cases hx : x = '.'
      · simp [hx, hmem]
      · have hx2 : ¬ '.' = x := fun h0 => hx h0.symm
        simp [hx, hx2, hmem]

theorem label_ByExtension (now : Int) (f : FileInfo) :
    categoryFor Strategy.ByExtension now f =
      if GetExt f.name = "" then "No Extension" else "." ++ Lower (GetExt f.name) := by
  unfold categoryFor
  simp only [IsEmpty, Lower]
  generalize GetExt f.name = e
  obtain ⟨d⟩ := e
  cases d with
  | nil => rfl
  | cons x xs =>
    have hne : ¬ (String.mk (x :: xs) = "") := by
      intro h0
      have := congrArg String.data h0
      simp at this
    simp [hne]

/-! ## Sizes -/

theorem roundHalfEven_one (n : Nat) : roundHalfEven n 1 = n := by
  unfold roundHalfEven
  rw [Nat.mod_one, Nat.div_one]
  simp

theorem FormatFileSize_eq_spec_toDouble (bytes : Nat) :
    FormatFileSize bytes = formatSizeSpec (toDouble bytes) := by
  simp [FormatFileSize, formatSizeSpec, fmt0, fmt1, oneDecimal, roundHalfEven_one]


/-! ## The claims on the helper functions -/

/-- Claim C2.  `GetCategoryForFile` returns the category of the table row whose
extension set contains the lowercased extension of the name, and `Other` when
no row contains it, in particular when the name has no extension.  Names whose
lowercased extensions agree get the same category; `photo.JPG` and `photo.jpg`
both yield `Images`, and `README` yields `Other`. -/
theorem GetCategoryForFile_table (file : FileInfo) :
    (∀ row ∈ categoryTable, Lower (GetExt file.name) ∈ row.2 →
      GetCategoryForFile file = row.1) ∧
    ((∀ row ∈ categoryTable, Lower (GetExt file.name) ∉ row.2) →
      GetCategoryForFile file = "Other") ∧
    (GetExt file.name = "" → GetCategoryForFile file = "Other") ∧
    (∀ other : FileInfo, Lower (GetExt other.name) = Lower (GetExt file.name) →
      GetCategoryForFile other = GetCategoryForFile file) ∧
    (file.name = "photo.JPG" → GetCategoryForFile file = "Images") ∧
    (file.name = "photo.jpg" → GetCategoryForFile file = "Images") ∧
    (file.name = "README" → GetCategoryForFile file = "Other") := by
  refine ⟨?_, ?_, ?_, ?_, ?_, ?_, ?_⟩
  · unfold GetCategoryForFile
    generalize Lower (GetExt file.name) = ext
    intro row hrow hmem
    simp only [categoryTable, List.mem_cons, List.mem_singleton, List.not_mem_nil,
      or_false] at hrow
    rcases hrow with rfl | rfl | rfl | rfl | rfl | rfl | rfl | rfl <;>
    · simp only [List.mem_cons, List.mem_singleton, List.not_mem_nil, or_false] at hmem
      casesm* _ ∨ _ <;> (subst_vars; decide)
  · unfold GetCategoryForFile
    generalize Lower (GetExt file.name) = ext
    intro h
    simp only [categoryTable, List.mem_cons, List.mem_singleton, List.not_mem_nil, or_false,
      forall_eq_or_imp, forall_eq, not_or] at h
    simp [h]
  · intro h
    unfold GetCategoryForFile
    rw [h]
    decide
  · intro other h
    unfold GetCategoryForFile
    rw [h]
  · intro h
    unfold GetCategoryForFile
    rw [h]
    decide
  · intro h
    unfold GetCategoryForFile
    rw [h]
    decide
  · intro h
    unfold GetCategoryForFile
    rw [h]
    decide

/-- Claim C2, at the picture `a.jpg` of the scenario: its lowercased extension
is in the row `Images` of the table, so it is an image. -/
theorem GetCategoryForFile_table_witness : GetCategoryForFile pictureFile = "Images" :=
  (GetCategoryForFile_table pictureFile).1
    ("Images", ["jpg", "jpeg", "png", "gif", "bmp", "svg", "webp", "ico"])
    (by decide) (by decide)

/-- Claim C3.  For every byte count, also where the conversion to `double`
rounds, `GetSizeCategory` returns each of its five labels exactly on the
integer range the specification gives; 102400 bytes are `Small`, 102399 bytes
are `Tiny`. -/
theorem GetSizeCategory_thresholds (bytes : Nat) :
    (GetSizeCategory bytes = "Tiny (< 100KB)" ↔ bytes < 102400) ∧
    (GetSizeCategory bytes = "Small (< 1MB)" ↔ 102400 ≤ bytes ∧ bytes < 1048576) ∧
    (GetSizeCategory bytes = "Medium (< 10MB)" ↔ 1048576 ≤ bytes ∧ bytes < 10485760) ∧
    (GetSizeCategory bytes = "Large (< 100MB)" ↔ 10485760 ≤ bytes ∧ bytes < 104857600) ∧
    (GetSizeCategory bytes = "Very Large (> 100MB)" ↔ 104857600 ≤ bytes) ∧
    GetSizeCategory 102400 = "Small (< 1MB)" ∧
    GetSizeCategory 102399 = "Tiny (< 100KB)" := by
  have e1 := toDouble_lt_iff bytes (1024 * 100) (by norm_num)
  have e2 := toDouble_lt_iff bytes (1024 * 1024) (by norm_num)
  have e3 := toDouble_lt_iff bytes (1024 * 1024 * 10) (by norm_num)
  have e4 := toDouble_lt_iff bytes (1024 * 1024 * 100) (by norm_num)
  refine ⟨?_, ?_, ?_, ?_, ?_, by decide, by decide⟩ <;>
  · simp only [GetSizeCategory, e1, e2, e3, e4]
    split_ifs <;> simp <;> omega

/-- Claim C4.  On every day difference the boundary chain of `GetDateCategory`
returns `Today` at 0, `Yesterday` at 1, and otherwise the label of the first
bound that holds among `< 7`, `< 30`, `< 90`, `< 365`, else `Older`; every
negative day difference yields `This Week`. -/
theorem GetDateCategoryOfDays_chain (diffDays : Int) :
    (diffDays = 0 → GetDateCategoryOfDays diffDays = "Today") ∧
    (diffDays = 1 → GetDateCategoryOfDays diffDays = "Yesterday") ∧
    (diffDays ≠ 0 → diffDays ≠ 1 → diffDays < 7 →
      GetDateCategoryOfDays diffDays = "This Week") ∧
    (7 ≤ diffDays → diffDays < 30 → GetDateCategoryOfDays diffDays = "This Month") ∧
    (30 ≤ diffDays → diffDays < 90 → GetDateCategoryOfDays diffDays = "Last 3 Months") ∧
    (90 ≤ diffDays → diffDays < 365 → GetDateCategoryOfDays diffDays = "This Year") ∧
    (365 ≤ diffDays → GetDateCategoryOfDays diffDays = "Older") ∧
    (diffDays < 0 → GetDateCategoryOfDays diffDays = "This Week") ∧
    (∀ now dt : Int, GetDays (now - dt) = diffDays →
      GetDateCategory now dt = GetDateCategoryOfDays diffDays) := by
  refine ⟨?_, ?_, ?_, ?_, ?_, ?_, ?_, ?_, ?_⟩
  case refine_9 =>
    intro now dt h
    simp only [GetDateCategory, h]
  all_goals
    unfold GetDateCategoryOfDays
    intros
    split_ifs <;> first | rfl | omega

/-- Claim C4, at the day differences 6, 7 and -3: `This Week`, `This Month`
and `This Week`. -/
theorem GetDateCategoryOfDays_chain_witness :
    GetDateCategoryOfDays 6 = "This Week" ∧
    GetDateCategoryOfDays 7 = "This Month" ∧
    GetDateCategoryOfDays (-3) = "This Week" :=
  ⟨(GetDateCategoryOfDays_chain 6).2.2.1 (by decide) (by decide) (by decide),
   (GetDateCategoryOfDays_chain 7).2.2.2.1 (by decide) (by decide),
   (GetDateCategoryOfDays_chain (-3)).2.2.2.2.2.2.2.1 (by decide)⟩

/-- Claim C5 as stated fails: for the name `.gitignore` the substring after
the last `.` is `gitignore`, but `GetExt` finds no extension, and the label
under `ByExtension` is `No Extension`, not `.gitignore`. -/
theorem dotFile_has_no_extension :
    extAfterLastDot dotFile.name = "gitignore" ∧
    GetExt dotFile.name = "" ∧
    categoryFor Strategy.ByExtension 0 dotFile = "No Extension" ∧
    categoryFor Strategy.ByExtension 0 dotFile ≠
      "." ++ Lower (extAfterLastDot dotFile.name) := by
  decide

/-- Claim C5, amended.  For every file name without `/`, the extension is the
substring after the last `.` of the name, and it is empty when the name has no
`.` or when its only `.` is its first character; the `ByExtension` label is `.`
followed by the lowercased extension when the extension is not empty, else
`No Extension`. -/
theorem ByExtension_label (now : Int) (f : FileInfo) (h : '/' ∉ f.name.data) :
    GetExt f.name = (if leadingDotOnly f.name = true then "" else extAfterLastDot f.name) ∧
    categoryFor Strategy.ByExtension now f =
      (if GetExt f.name = "" then "No Extension" else "." ++ Lower (GetExt f.name)) :=
  ⟨GetExt_of_no_slash f.name h, label_ByExtension now f⟩

/-- Claim C5, amended, at the names `README` and `.gitignore` (both
`No Extension`) and `a.jpg` (label `.jpg`). -/
theorem ByExtension_label_witness :
    '/' ∉ readmeFile.name.data ∧
    categoryFor Strategy.ByExtension 0 readmeFile = "No Extension" ∧
    categoryFor Strategy.ByExtension 0 dotFile = "No Extension" ∧
    categoryFor Strategy.ByExtension 0 pictureFile = ".jpg" :=
  ⟨by decide,
   (ByExtension_label 0 readmeFile (by decide)).2.trans (by decide),
   (ByExtension_label 0 dotFile (by decide)).2.trans (by decide),
   (ByExtension_label 0 pictureFile (by decide)).2.trans (by decide)⟩

/-- Claim C7 as stated fails: the 64-bit byte count 9007199308428083 divided
by `1024 ^ 3` is 8388608.0499..., which is 8388608.0 with one decimal, but
`FormatFileSize` first rounds the count to the `double` 9007199308428084 and
renders 8388608.1. -/
theorem FormatFileSize_huge :
    hugeSize < 2 ^ 64 ∧
    toDouble hugeSize = hugeSize + 1 ∧
    formatSizeSpec hugeSize = "8388608.0 GB" ∧
    FormatFileSize hugeSize = "8388608.1 GB" := by
  decide

/-- Claim C7, amended.  `FormatFileSize` chooses the unit by the thresholds
1024, `1024 ^ 2`, `1024 ^ 3` on the byte count itself: bytes with no decimal,
`bytes / 1024` in KB, `bytes / 1024 ^ 2` in MB, each with one decimal, and in
GB the `double` nearest to the byte count divided by `1024 ^ 3`, with one
decimal.  For every byte count below `2 ^ 53` this is the string the
specification describes; 500 gives `500 B`, 2000000 gives `1.9 MB`. -/
theorem FormatFileSize_units (bytes : Nat) :
    (FormatFileSize bytes =
      if bytes < 1024 then Nat.repr bytes ++ " B"
      else if bytes < 1024 ^ 2 then oneDecimal bytes 1024 ++ " KB"
      else if bytes < 1024 ^ 3 then oneDecimal bytes (1024 ^ 2) ++ " MB"
      else oneDecimal (toDouble bytes) (1024 ^ 3) ++ " GB") ∧
    (bytes < 2 ^ 53 → FormatFileSize bytes = formatSizeSpec bytes) ∧
    FormatFileSize 500 = "500 B" ∧
    FormatFileSize 2000000 = "1.9 MB" := by
  refine ⟨?_, ?_, by decide, by decide⟩
  · rw [FormatFileSize_eq_spec_toDouble]
    unfold formatSizeSpec
    by_cases h : bytes < 2 ^ 53
    · rw [toDouble_of_lt h]
    · have h1 := toDouble_ge (Nat.le_of_not_lt h)
      have h2 : 2 ^ 53 ≤ bytes := Nat.le_of_not_lt h
      have c1 : (1024 : Nat) ^ 2 ≤ 2 ^ 53 := by norm_num
      have c2 : (1024 : Nat) ^ 3 ≤ 2 ^ 53 := by norm_num
      rw [if_neg (by omega), if_neg (by omega), if_neg (by omega), if_neg (by omega),
        if_neg (by omega), if_neg (by omega)]
  · intro h
    rw [FormatFileSize_eq_spec_toDouble, toDouble_of_lt h]

/-- Claim C7, amended, at 2000000 bytes, a count below `2 ^ 53`. -/
theorem FormatFileSize_units_witness :
    2000000 < 2 ^ 53 ∧ FormatFileSize 2000000 = formatSizeSpec 2000000 :=
  ⟨by decide, (FormatFileSize_units 2000000).2.1 (by decide)⟩


/-! ## The organize loop -/

theorem keysAscending_organizeLoop (strategy : Strategy) (clock : Nat → Int) (i : Nat)
    (fs : List FileInfo) {m : OrganizedMap} (hm : KeysAscending m) :
    KeysAscending (organizeLoop strategy clock i fs m) := by
  induction fs generalizing i m with
  | nil => exact hm
  | cons f fs ih => exact ih (i + 1) (keysAscending_pushBack _ f hm)

theorem nonempty_organizeLoop (strategy : Strategy) (clock : Nat → Int) (i : Nat)
    (fs : List FileInfo) {m : OrganizedMap} (hm : ∀ e ∈ m, e.2 ≠ []) :
    ∀ e ∈ organizeLoop strategy clock i fs m, e.2 ≠ [] := by
  induction fs generalizing i m with
  | nil => exact hm
  | cons f fs ih => exact ih (i + 1) (nonempty_pushBack _ f hm)

theorem perm_organizeLoop (strategy : Strategy) (clock : Nat → Int) (i : Nat)
    (fs : List FileInfo) (m : OrganizedMap) :
    ((organizeLoop strategy clock i fs m).map Prod.snd).flatten.Perm
      ((m.map Prod.snd).flatten ++ fs) := by
  induction fs generalizing i m with
  | nil => simp [organizeLoop]
  | cons f fs ih =>
    simp only [organizeLoop]
    refine (ih (i + 1) _).trans ?_
    refine (List.Perm.append_right fs (perm_pushBack _ f m)).trans ?_
    simpa using (@List.perm_middle _ f (m.map Prod.snd).flatten fs).symm

theorem lookup_organizeLoop (strategy : Strategy) (clock : Nat → Int) (k : String) (i : Nat)
    (fs : List FileInfo) (m : OrganizedMap) :
    lookup k (organizeLoop strategy clock i fs m) =
      lookup k m ++ recordsLabelled k (labelledFrom strategy clock i fs) := by
  induction fs generalizing i m with
  | nil => simp [organizeLoop, labelledFrom, recordsLabelled]
  | cons f fs ih =>
    simp only [organizeLoop, labelledFrom]
    rw [ih, lookup_pushBack]
    unfold recordsLabelled
    by_cases hk : k = categoryFor strategy (clock i) f
    · simp [hk]
    · have hk2 : ¬ categoryFor strategy (clock i) f = k := fun h => hk h.symm
      simp [hk, hk2]

theorem organized_of_ne {clock : Nat → Int} {st : MainFrame} (h : st.m_files ≠ []) :
    (OnOrganize clock st).m_organized = organizeLoop st.m_strategy clock 0 st.m_files [] := by
  unfold OnOrganize
  cases hf : st.m_files with
  | nil => exact absurd hf h
  | cons f fs => simp

theorem keysAscending_nil : KeysAscending [] := by
  simp [KeysAscending]

theorem nodup_of_keysAscending {m : OrganizedMap} (hm : KeysAscending m) :
    (m.map Prod.fst).Nodup :=
  List.Pairwise.imp (fun h => wxLess_ne h) hm

/-! ## Partition completeness and bucket order -/

/-- Claim C1.  After `OnOrganize` on a non-empty file list, under any of the
four strategies and any clock readings: the bucket sizes sum to the number of
input records; the buckets laid end to end are a rearrangement of the input
(no record lost, none duplicated); the bucket keys are strictly ascending, hence
pairwise different; and when the input records are pairwise different, every
input record lies in exactly one bucket. -/
theorem OnOrganize_partition (clock : Nat → Int) (st : MainFrame) (h : st.m_files ≠ []) :
    (((OnOrganize clock st).m_organized.map (fun e => e.2.length)).sum = st.m_files.length) ∧
    (((OnOrganize clock st).m_organized.map Prod.snd).flatten.Perm st.m_files) ∧
    KeysAscending (OnOrganize clock st).m_organized ∧
    ((OnOrganize clock st).m_organized.map Prod.fst).Nodup ∧
    (st.m_files.Nodup → ∀ f ∈ st.m_files,
      ∃! e, e ∈ (OnOrganize clock st).m_organized ∧ f ∈ e.2) := by
  rw [organized_of_ne h]
  have hperm := perm_organizeLoop st.m_strategy clock 0 st.m_files []
  simp only [List.map_nil, List.flatten_nil, List.nil_append] at hperm
  have hasc := keysAscending_organizeLoop st.m_strategy clock 0 st.m_files keysAscending_nil
  generalize organizeLoop st.m_strategy clock 0 st.m_files [] = m at hperm hasc
  refine ⟨?_, hperm, hasc, nodup_of_keysAscending hasc, ?_⟩
  · rw [← hperm.length_eq, List.length_flatten, List.map_map]
    rfl
  · intro hnd f hf
    have hnd2 : ((m.map Prod.snd).flatten).Nodup := hperm.nodup_iff.2 hnd
    have hf2 : f ∈ (m.map Prod.snd).flatten := hperm.mem_iff.2 hf
    rw [List.mem_flatten] at hf2
    obtain ⟨l, hl, hfl⟩ := hf2
    rw [List.mem_map] at hl
    obtain ⟨e, he, rfl⟩ := hl
    refine ⟨e, ⟨he, hfl⟩, ?_⟩
    rintro e2 ⟨he2, hfe2⟩
    by_contra hne
    have hdis : List.Pairwise (fun a b : String × List FileInfo => List.Disjoint a.2 b.2) m :=
      List.pairwise_map.1 (List.nodup_flatten.1 hnd2).2
    have hsym : Symmetric (fun a b : String × List FileInfo => List.Disjoint a.2 b.2) :=
      fun _ _ hab => hab.symm
    exact hdis.forall hsym he2 he hne hfe2 hfl

/-- Claim C8.  After `OnOrganize` on a non-empty file list, every bucket is
exactly the subsequence of the input records whose category label is the
bucket key, in input order; it is not empty, so its key is the label of some
input record. -/
theorem OnOrganize_bucket_order (clock : Nat → Int) (st : MainFrame) (h : st.m_files ≠ []) :
    ∀ e ∈ (OnOrganize clock st).m_organized,
      e.2 = recordsLabelled e.1 (labelledFrom st.m_strategy clock 0 st.m_files) ∧
      e.2 ≠ [] ∧
      e.1 ∈ (labelledFrom st.m_strategy clock 0 st.m_files).map Prod.fst := by
  rw [organized_of_ne h]
  intro e he
  have hasc := keysAscending_organizeLoop st.m_strategy clock 0 st.m_files keysAscending_nil
  have hnil : ∀ x ∈ ([] : OrganizedMap), x.2 ≠ [] := by simp
  have hne := nonempty_organizeLoop st.m_strategy clock 0 st.m_files hnil e he
  have hl := lookup_of_mem hasc he
  rw [lookup_organizeLoop] at hl
  simp only [lookup, List.nil_append] at hl
  refine ⟨hl.symm, hne, ?_⟩
  rw [← hl] at hne
  unfold recordsLabelled at hne
  have hfl : (labelledFrom st.m_strategy clock 0 st.m_files).filter (fun p => p.1 = e.1) ≠ [] :=
    fun h0 => hne (by rw [h0]; rfl)
  obtain ⟨p, hp⟩ := List.exists_mem_of_ne_nil _ hfl
  rw [List.mem_filter] at hp
  exact List.mem_map.2 ⟨p, hp.1, by simpa using hp.2⟩


/-! ## The exported plan -/

theorem sortedKeys_eq {m : OrganizedMap} (hm : KeysAscending m) :
    sortedKeys m = m.map Prod.fst :=
  List.Sorted.insertionSort_eq hm

theorem exportLoop_eq_flatMap (m : OrganizedMap) (keys : List String) :
    exportLoop m keys = keys.flatMap (fun k => exportBlock k (lookup k m)) := by
  induction keys with
  | nil => rfl
  | cons k ks ih => simp [exportLoop, ih]

theorem exportLoop_entries {m : OrganizedMap} (hm : KeysAscending m) (sub : OrganizedMap)
    (hsub : ∀ e ∈ sub, e ∈ m) :
    exportLoop m (sub.map Prod.fst) = sub.flatMap (fun e => exportBlock e.1 e.2) := by
  induction sub with
  | nil => rfl
  | cons e rest ih =>
    simp only [List.mem_cons, forall_eq_or_imp] at hsub
    simp [exportLoop, lookup_of_mem hm hsub.1, ih hsub.2]

theorem length_flatMap_exportBlock (m : OrganizedMap) :
    (m.flatMap (fun e => exportBlock e.1 e.2)).length =
      (m.map (fun e => e.2.length + 2)).sum := by
  induction m with
  | nil => rfl
  | cons e rest ih =>
    simp only [List.flatMap_cons, List.length_append, ih, List.map_cons, List.sum_cons]
    simp [exportBlock]

theorem organized_ne_nil (clock : Nat → Int) {st : MainFrame} (h : st.m_files ≠ []) :
    (OnOrganize clock st).m_organized ≠ [] := by
  intro h0
  have hp := perm_organizeLoop st.m_strategy clock 0 st.m_files []
  rw [← organized_of_ne h, h0] at hp
  simp only [List.map_nil, List.flatten_nil, List.nil_append] at hp
  exact h hp.nil_eq.symm

theorem strategy_OnOrganize (clock : Nat → Int) (st : MainFrame) :
    (OnOrganize clock st).m_strategy = st.m_strategy := by
  unfold OnOrganize
  split_ifs <;> rfl

/-- Claim C6.  The plan exported after `OnOrganize` on a non-empty file list
consists of the three heading lines followed by one block per key of a key
list that is strictly ascending in the code-point order, has no repetition and
holds exactly the bucket keys; the block of a key shows the bucket stored
under it. -/
theorem OnExportPlan_blocks_ascending (clock : Nat → Int) (st : MainFrame)
    (h : st.m_files ≠ []) :
    ∃ keys : List String,
      OnExportPlan true (OnOrganize clock st) =
        some (("Directory Organization Plan (" ++ strategyText st.m_strategy ++ ")") ::
          String.mk (List.replicate 60 '=') :: "" ::
          keys.flatMap (fun k => exportBlock k (lookup k (OnOrganize clock st).m_organized))) ∧
      List.Pairwise (fun a b => wxLess a b = true) keys ∧
      keys.Nodup ∧
      (∀ k, k ∈ keys ↔ k ∈ (OnOrganize clock st).m_organized.map Prod.fst) := by
  have hasc : KeysAscending (OnOrganize clock st).m_organized := by
    rw [organized_of_ne h]
    exact keysAscending_organizeLoop _ _ _ _ keysAscending_nil
  refine ⟨sortedKeys (OnOrganize clock st).m_organized, ?_, ?_, ?_, ?_⟩
  · have hne := organized_ne_nil clock h
    cases hm : (OnOrganize clock st).m_organized with
    | nil => exact absurd hm hne
    | cons e rest =>
      simp [OnExportPlan, hm, exportLoop_eq_flatMap, strategy_OnOrganize]
  · rw [sortedKeys_eq hasc]; exact hasc
  · rw [sortedKeys_eq hasc]; exact nodup_of_keysAscending hasc
  · intro k; rw [sortedKeys_eq hasc]

/-- Claim C9.  The plan exported after `OnOrganize` on a non-empty file list
is: the header line naming the strategy, a line of 60 characters `=`, an empty
line, and then for each bucket, in map order, its header line with the key and
the bucket size, one line per record of the bucket in bucket order with the
name and the formatted size, and an empty line.  The number of lines is 3 plus
the sum over the buckets of (size + 2). -/
theorem OnExportPlan_structure (clock : Nat → Int) (st : MainFrame) (h : st.m_files ≠ []) :
    ∃ (plan : List String) (sep : String),
      OnExportPlan true (OnOrganize clock st) = some plan ∧
      plan = ("Directory Organization Plan (" ++ strategyText st.m_strategy ++ ")") ::
        sep :: "" ::
        (OnOrganize clock st).m_organized.flatMap (fun e =>
          ("📁 " ++ e.1 ++ "/ (" ++ Nat.repr e.2.length ++ " files)") ::
            (e.2.map (fun f => "   └─ " ++ f.name ++ " (" ++ FormatFileSize f.size ++ ")") ++
              [""])) ∧
      sep.data.length = 60 ∧ (∀ c ∈ sep.data, c = '=') ∧
      plan.length =
        3 + ((OnOrganize clock st).m_organized.map (fun e => e.2.length + 2)).sum := by
  have hasc : KeysAscending (OnOrganize clock st).m_organized := by
    rw [organized_of_ne h]
    exact keysAscending_organizeLoop _ _ _ _ keysAscending_nil
  have hne := organized_ne_nil clock h
  have hloop := exportLoop_entries hasc (OnOrganize clock st).m_organized (fun _ he => he)
  have hplan : OnExportPlan true (OnOrganize clock st) =
      some (("Directory Organization Plan (" ++ strategyText st.m_strategy ++ ")") ::
        String.mk (List.replicate 60 '=') :: "" ::
        (OnOrganize clock st).m_organized.flatMap (fun e => exportBlock e.1 e.2)) := by
    rw [← hloop, ← sortedKeys_eq hasc]
    cases hm : (OnOrganize clock st).m_organized with
    | nil => exact absurd hm hne
    | cons e rest =>
      simp [OnExportPlan, hm, strategy_OnOrganize]
  refine ⟨_, String.mk (List.replicate 60 '='), hplan, rfl, by simp, ?_, ?_⟩
  · intro c hc
    exact List.eq_of_mem_replicate hc
  · simp only [List.length_cons, length_flatMap_exportBlock]
    omega

/-- Claim C10 (the code at the failing session).  One picture is organized
under the strategy "by type", then "by size" is selected and the plan is
exported: the single bucket is still `Images` and the summary label still
names "By File Type", but the header line of the plan names "By File Size". -/
theorem export_header_names_current_strategy :
    (run MainFrame.init relabelSession).1.m_organized =
      [("Images", [pictureFile])] ∧
    (run MainFrame.init relabelSession).1.m_organizedSummary =
      "1 categories • 1 files organized (By File Type)" ∧
    (run MainFrame.init relabelSession).2 =
      [["Directory Organization Plan (By File Size)",
        String.mk (List.replicate 60 '='),
        "",
        "📁 Images/ (1 files)",
        "   └─ a.jpg (500 B)",
        ""]] := by
  decide


/-- Claim C1, at the three records of the scenario under `ByType`: the bucket
sizes sum to 3. -/
theorem OnOrganize_partition_witness :
    (stateWith scenarioFiles Strategy.ByType).m_files ≠ [] ∧
    ((OnOrganize (fun _ => 0) (stateWith scenarioFiles Strategy.ByType)).m_organized.map
      (fun e => e.2.length)).sum = 3 :=
  ⟨by decide,
   (OnOrganize_partition (fun _ => 0) (stateWith scenarioFiles Strategy.ByType)
     (by decide)).1⟩

/-- Claim C8, at the three records of the scenario under `BySize`. -/
theorem OnOrganize_bucket_order_witness :
    (stateWith scenarioFiles Strategy.BySize).m_files ≠ [] ∧
    ∀ e ∈ (OnOrganize (fun _ => 0) (stateWith scenarioFiles Strategy.BySize)).m_organized,
      e.2 = recordsLabelled e.1 (labelledFrom Strategy.BySize (fun _ => 0) 0 scenarioFiles) ∧
      e.2 ≠ [] ∧
      e.1 ∈ (labelledFrom Strategy.BySize (fun _ => 0) 0 scenarioFiles).map Prod.fst :=
  ⟨by decide,
   OnOrganize_bucket_order (fun _ => 0) (stateWith scenarioFiles Strategy.BySize)
     (by decide)⟩

/-- Claim C6, at three records whose buckets are created in the order Videos,
Audio, Code: the plan lists Audio, Code, Videos. -/
theorem OnExportPlan_blocks_ascending_witness :
    (stateWith mediaFiles Strategy.ByType).m_files ≠ [] ∧
    (∃ keys : List String,
      OnExportPlan true (OnOrganize (fun _ => 0) (stateWith mediaFiles Strategy.ByType)) =
        some (("Directory Organization Plan (" ++ strategyText Strategy.ByType ++ ")") ::
          String.mk (List.replicate 60 '=') :: "" ::
          keys.flatMap (fun k => exportBlock k (lookup k
            (OnOrganize (fun _ => 0) (stateWith mediaFiles Strategy.ByType)).m_organized))) ∧
      List.Pairwise (fun a b => wxLess a b = true) keys ∧
      keys.Nodup ∧
      (∀ k, k ∈ keys ↔ k ∈
        (OnOrganize (fun _ => 0) (stateWith mediaFiles Strategy.ByType)).m_organized.map
          Prod.fst)) ∧
    (labelledFrom Strategy.ByType (fun _ => 0) 0 mediaFiles).map Prod.fst =
      ["Videos", "Audio", "Code"] ∧
    OnExportPlan true (OnOrganize (fun _ => 0) (stateWith mediaFiles Strategy.ByType)) =
      some ["Directory Organization Plan (By File Type)",
        String.mk (List.replicate 60 '='),
        "",
        "📁 Audio/ (1 files)", "   └─ s.mp3 (2.9 KB)", "",
        "📁 Code/ (1 files)", "   └─ m.cpp (20 B)", "",
        "📁 Videos/ (1 files)", "   └─ v.mp4 (6.7 MB)", ""] :=
  ⟨by decide,
   OnExportPlan_blocks_ascending (fun _ => 0) (stateWith mediaFiles Strategy.ByType)
     (by decide),
   by decide, by decide⟩

/-- Claim C9, at the three records of the scenario under `ByType`: a plan of
3 + (1 + 2) + (1 + 2) + (1 + 2) = 12 lines. -/
theorem OnExportPlan_structure_witness :
    (stateWith scenarioFiles Strategy.ByType).m_files ≠ [] ∧
    (∃ (plan : List String) (sep : String),
      OnExportPlan true (OnOrganize (fun _ => 0) (stateWith scenarioFiles Strategy.ByType)) =
        some plan ∧
      plan = ("Directory Organization Plan (" ++ strategyText Strategy.ByType ++ ")") ::
        sep :: "" ::
        (OnOrganize (fun _ => 0) (stateWith scenarioFiles Strategy.ByType)).m_organized.flatMap
          (fun e =>
            ("📁 " ++ e.1 ++ "/ (" ++ Nat.repr e.2.length ++ " files)") ::
              (e.2.map (fun f => "   └─ " ++ f.name ++ " (" ++ FormatFileSize f.size ++ ")") ++
                [""])) ∧
      sep.data.length = 60 ∧ (∀ c ∈ sep.data, c = '=') ∧
      plan.length = 3 +
        ((OnOrganize (fun _ => 0) (stateWith scenarioFiles Strategy.ByType)).m_organized.map
          (fun e => e.2.length + 2)).sum) ∧
    Option.map List.length
      (OnExportPlan true (OnOrganize (fun _ => 0) (stateWith scenarioFiles Strategy.ByType))) =
      some 12 :=
  ⟨by decide,
   OnExportPlan_structure (fun _ => 0) (stateWith scenarioFiles Strategy.ByType) (by decide),
   by decide⟩


/-! ## The reference instant of the date categories -/

theorem mem_of_lookup_ne_nil {k : String} {m : OrganizedMap} (h : lookup k m ≠ []) :
    (k, lookup k m) ∈ m := by
  induction m with
  | nil => exact absurd rfl h
  | cons x rest ih =>
    obtain ⟨k2, b⟩ := x
    simp only [lookup] at h ⊢
    cases h1 : wxLess k k2 with
    | true => simp [h1] at h
    | false =>
      cases h2 : wxLess k2 k with
      | true =>
        simp only [h1, h2, Bool.false_eq_true, if_false, if_true] at h ⊢
        exact List.mem_cons_of_mem _ (ih h)
      | false =>
        have hk : k = k2 := wxLess_eq_of_not h1 h2
        subst hk
        simp [h1]

theorem mem_labelledFrom (strategy : Strategy) (clock : Nat → Int) (i k : Nat)
    (files : List FileInfo) (f : FileInfo) (h : files[k]? = some f) :
    (categoryFor strategy (clock (i + k)) f, f) ∈ labelledFrom strategy clock i files := by
  induction files generalizing i k with
  | nil => simp at h
  | cons x xs ih =>
    cases k with
    | zero =>
      simp only [List.getElem?_cons_zero, Option.some.injEq] at h
      subst h
      simp [labelledFrom]
    | succ k =>
      simp only [List.getElem?_cons_succ] at h
      have h1 := ih (i + 1) k h
      have h2 : i + 1 + k = i + (k + 1) := by omega
      rw [h2] at h1
      simp only [labelledFrom]
      exact List.mem_cons_of_mem _ h1

theorem mem_recordsLabelled {k : String} {f : FileInfo} {l : List (String × FileInfo)}
    (h : (k, f) ∈ l) : f ∈ recordsLabelled k l := by
  unfold recordsLabelled
  exact List.mem_map.2 ⟨(k, f), List.mem_filter.2 ⟨h, by simp⟩, rfl⟩

/-- Claim C11 as stated fails: two records with the same modification time,
organized in one run under `ByDate` while the clock passes the end of a day,
are categorised against different readings and land in different buckets,
`Today` and `Yesterday`. -/
theorem sameTimeFiles_different_labels :
    noteOne.modified = noteTwo.modified ∧
    (OnOrganize midnightClock (stateWith sameTimeFiles Strategy.ByDate)).m_organized =
      [("Today", [noteOne]), ("Yesterday", [noteTwo])] := by
  decide

/-- Claim C11, amended.  In one run of `OnOrganize` under `ByDate` the record
at position `i` is categorised against the reading `clock i` taken for it: it
lies in the bucket whose key is its date label for that reading.  A record at
position `j` with the same modification time lies in the same bucket whenever
its own reading gives the same day difference, in particular whenever the two
readings are equal. -/
theorem OnOrganize_ByDate_readings (clock : Nat → Int) (st : MainFrame)
    (hs : st.m_strategy = Strategy.ByDate) (i j : Nat) (f g : FileInfo)
    (hf : st.m_files[i]? = some f) (hg : st.m_files[j]? = some g) :
    ∃ e ∈ (OnOrganize clock st).m_organized,
      e.1 = GetDateCategory (clock i) f.modified ∧ f ∈ e.2 ∧
      (f.modified = g.modified →
        GetDays (clock j - f.modified) = GetDays (clock i - f.modified) → g ∈ e.2) ∧
      (f.modified = g.modified → clock j = clock i → g ∈ e.2) := by
  have hne : st.m_files ≠ [] := by
    intro h0
    rw [h0] at hf
    simp at hf
  have hl := lookup_organizeLoop Strategy.ByDate clock
    (GetDateCategory (clock i) f.modified) 0 st.m_files []
  simp only [lookup, List.nil_append] at hl
  have hfm := mem_labelledFrom Strategy.ByDate clock 0 i st.m_files f hf
  have hgm := mem_labelledFrom Strategy.ByDate clock 0 j st.m_files g hg
  simp only [Nat.zero_add, categoryFor] at hfm hgm
  have hfl : f ∈ lookup (GetDateCategory (clock i) f.modified)
      (organizeLoop Strategy.ByDate clock 0 st.m_files []) := by
    rw [hl]
    exact mem_recordsLabelled hfm
  have hsame : f.modified = g.modified →
      GetDays (clock j - f.modified) = GetDays (clock i - f.modified) →
      g ∈ lookup (GetDateCategory (clock i) f.modified)
        (organizeLoop Strategy.ByDate clock 0 st.m_files []) := by
    intro hm hd
    rw [hl]
    apply mem_recordsLabelled
    have hlab : GetDateCategory (clock j) g.modified =
        GetDateCategory (clock i) f.modified := by
      simp only [GetDateCategory, ← hm, hd]
    rw [← hlab]
    exact hgm
  rw [organized_of_ne hne, hs]
  refine ⟨_, mem_of_lookup_ne_nil (List.ne_nil_of_mem hfl), rfl, hfl, hsame, ?_⟩
  intro hm hc
  exact hsame hm (by rw [hc])

/-- Claim C11, amended, at the two records of equal modification time when
both readings are 86399000: one bucket holds both. -/
theorem OnOrganize_ByDate_readings_witness :
    (stateWith sameTimeFiles Strategy.ByDate).m_strategy = Strategy.ByDate ∧
    (stateWith sameTimeFiles Strategy.ByDate).m_files[0]? = some noteOne ∧
    (stateWith sameTimeFiles Strategy.ByDate).m_files[1]? = some noteTwo ∧
    (∃ e ∈ (OnOrganize (fun _ => 86399000)
        (stateWith sameTimeFiles Strategy.ByDate)).m_organized,
      e.1 = GetDateCategory 86399000 noteOne.modified ∧ noteOne ∈ e.2 ∧
      (noteOne.modified = noteTwo.modified →
        GetDays (86399000 - noteOne.modified) = GetDays (86399000 - noteOne.modified) →
        noteTwo ∈ e.2) ∧
      (noteOne.modified = noteTwo.modified → (86399000 : Int) = 86399000 → noteTwo ∈ e.2)) ∧
    (OnOrganize (fun _ => 86399000) (stateWith sameTimeFiles Strategy.ByDate)).m_organized =
      [("Today", [noteOne, noteTwo])] :=
  ⟨by decide, by decide, by decide,
   OnOrganize_ByDate_readings (fun _ => 86399000) (stateWith sameTimeFiles Strategy.ByDate)
     (by decide) 0 1 noteOne noteTwo (by decide) (by decide),
   by decide⟩


/-! ## The day difference -/

theorem tdiv_pos_divisor (a k : Int) (hk : 0 < k) :
    Int.tdiv a k = if 0 ≤ a then a / k else -((-a) / k) := by
  split_ifs with h
  · exact Int.tdiv_eq_ediv h (le_of_lt hk)
  · have h1 : 0 ≤ -a := by omega
    have h2 : Int.tdiv (-a) k = (-a) / k := Int.tdiv_eq_ediv h1 (le_of_lt hk)
    rw [Int.neg_tdiv] at h2
    omega

theorem GetDays_eq_tdiv (diff : Int) (h1 : -(2 ^ 31 * 60000) < diff)
    (h2 : diff < 2 ^ 31 * 60000) : GetDays diff = Int.tdiv diff 86400000 := by
  norm_num at h1 h2
  unfold GetDays GetHours GetMinutes GetSeconds toInt32
  rw [tdiv_pos_divisor diff 86400000 (by norm_num), tdiv_pos_divisor diff 1000 (by norm_num),
    tdiv_pos_divisor _ 60 (by norm_num), tdiv_pos_divisor _ 60 (by norm_num),
    tdiv_pos_divisor _ 24 (by norm_num)]
  norm_num
  split_ifs <;> omega


/-- Claim C12 as stated fails: for a file dated one hour later than `now` the
day difference fed to the boundary chain is 0, not the floor -1, and the file
is labelled `Today`; and for a file dated `2 ^ 31` minutes before `now` the
conversion of the minutes to `int` wraps, the day difference is -1491308, the
floor is 1491308. -/
theorem GetDays_not_floor :
    GetDays (0 - 3600000) = 0 ∧
    floorDays 0 3600000 = -1 ∧
    GetDateCategory 0 3600000 = "Today" ∧
    GetDays (2 ^ 31 * 60000 - 0) = -1491308 ∧
    floorDays (2 ^ 31 * 60000) 0 = 1491308 := by
  decide

/-- Claim C12, amended.  For every reference instant and every modification
time less than `2 ^ 31` minutes apart, the day difference that
`GetDateCategory` feeds to its boundary chain is `now - modifiedAt` in days,
truncated toward zero: the floor when the file is not dated later than `now`,
and minus the floor of `modifiedAt - now` in days when it is.  It is negative
exactly when the file is dated at least one full day later than `now`. -/
theorem GetDateCategory_diffDays (now dt : Int) (h1 : -(2 ^ 31 * 60000) < now - dt)
    (h2 : now - dt < 2 ^ 31 * 60000) :
    GetDays (now - dt) = Int.tdiv (now - dt) 86400000 ∧
    GetDateCategory now dt = GetDateCategoryOfDays (Int.tdiv (now - dt) 86400000) ∧
    (dt ≤ now → GetDays (now - dt) = floorDays now dt) ∧
    (now < dt → GetDays (now - dt) = -floorDays dt now) ∧
    (GetDays (now - dt) < 0 ↔ 86400000 ≤ dt - now) := by
  have h := GetDays_eq_tdiv (now - dt) h1 h2
  have ht := tdiv_pos_divisor (now - dt) 86400000 (by norm_num)
  have hneg : -(now - dt) = dt - now := by ring
  refine ⟨h, ?_, ?_, ?_, ?_⟩
  · simp only [GetDateCategory, h]
  · intro hle
    rw [h, ht, if_pos (by omega)]
    rfl
  · intro hlt
    rw [h, ht, if_neg (by omega), hneg]
    rfl
  · rw [h, ht]
    split_ifs <;> omega

/-- Claim C12, amended, at a file dated one hour later than `now = 0`: the
day difference is the truncated quotient 0. -/
theorem GetDateCategory_diffDays_witness :
    -(2 ^ 31 * 60000) < (0 : Int) - 3600000 ∧
    (0 : Int) - 3600000 < 2 ^ 31 * 60000 ∧
    GetDays (0 - 3600000) = Int.tdiv (0 - 3600000) 86400000 ∧
    Int.tdiv (0 - 3600000) 86400000 = 0 :=
  ⟨by decide, by decide,
   (GetDateCategory_diffDays 0 3600000 (by decide) (by decide)).1,
   by decide⟩

end Medama
